import Mathlib

/-!
Verification of the x-ts-player ingestion/classification/pacing pipeline.

The definitions below are shallow embeddings of the TypeScript sources:
  * `src/webcodec-player/speed-control.ts`   (pacing scheduler)
  * `src/webcodec-player/codec-description.ts` (parameter-set extraction)
  * the keyframe scanners (`isH264Keyframe`, `isH265Keyframe`, `detectKeyframe`)
  * `src/composeable/useVideoDemuxDecoder.ts` (ingestion loop, counters, stats)

Byte buffers are modelled as `List Nat`; out-of-range reads yield the
sentinel 256 (a value no `Uint8Array` element can take, mirroring
JavaScript's `undefined` which compares unequal to both 0 and 1).
Wall-clock times (`performance.now()` values) are modelled as rationals.
-/

namespace TsPlayer

/-! ## Pacing scheduler (`SpeedControl`, speed-control.ts) -/

/-- State of a `SpeedControl` instance: the chunk queue, the pacing baseline
`preTime`, the configured target interval `frameInterval`, the
first-enqueue timestamp `firstFrameTime` (0 while unset, mirroring the
JavaScript truthiness test), and the `paused` flag.  Chunks are modelled
as opaque `Nat` identifiers. -/
structure SpeedControlState where
  queue : List Nat
  preTime : ℚ
  frameInterval : ℚ
  firstFrameTime : ℚ
  paused : Bool
  deriving Repr, DecidableEq

/-- The constructor's initial state: empty queue, `preTime = 0`,
`frameInterval = 35`, `firstFrameTime = 0`, not paused. -/
def initSpeedControl : SpeedControlState :=
  { queue := [], preTime := 0, frameInterval := 35, firstFrameTime := 0, paused := false }

/-- `consume()`: pop the front of the queue and hand it to the consumer
(the emitted chunks are returned as a list; popping an empty queue emits
nothing). -/
def consume (s : SpeedControlState) : SpeedControlState × List Nat :=
  match s.queue with
  | [] => (s, [])
  | c :: rest => ({ s with queue := rest }, [c])

/-- One invocation of the `reqFrame` animation-frame callback at wall-clock
`time`.  Mirrors the tick body: nothing happens until `firstFrameTime` is
truthy; `offset = time - preTime`; `offset ≥ 1.5 * frameInterval` resets
`preTime = time` and (unless paused) consumes two chunks;
`offset ≥ frameInterval` advances `preTime` by `frameInterval` and (unless
paused) consumes one chunk; otherwise the state is untouched.  Returns the
new state and the chunks emitted to the consumer, in emission order. -/
def tick (s : SpeedControlState) (time : ℚ) : SpeedControlState × List Nat :=
  if s.firstFrameTime ≠ 0 then
    let offset := time - s.preTime
    if offset ≥ 3/2 * s.frameInterval then
      let s1 := { s with preTime := time }
      if s1.paused then (s1, [])
      else
        let r1 := consume s1
        let r2 := consume r1.1
        (r2.1, r1.2 ++ r2.2)
    else if offset ≥ s.frameInterval then
      let s1 := { s with preTime := s.preTime + s.frameInterval }
      if s1.paused then (s1, [])
      else consume s1
    else (s, [])
  else (s, [])

/-- `addEncodeVideoChunk`: push a chunk at the back of the queue and, on the
first ever enqueue (`firstFrameTime` still 0), record
`firstFrameTime = now` and `preTime = now`. -/
def addEncodeVideoChunk (s : SpeedControlState) (c : Nat) (now : ℚ) : SpeedControlState :=
  let s1 := { s with queue := s.queue ++ [c] }
  if s1.firstFrameTime = 0 then { s1 with firstFrameTime := now, preTime := now } else s1

/-- Run a sequence of ticks at the given wall-clock times, discarding the
emitted chunks. -/
def runTicks (s : SpeedControlState) : List ℚ → SpeedControlState
  | [] => s
  | t :: ts => runTicks (tick s t).1 ts

/-- The tick times `ts` all take the fixed-step branch: at each tick the
scheduler is started (`firstFrameTime ≠ 0`) and the observed elapsed time
lies in `[frameInterval, 1.5 * frameInterval)`. -/
def FixedStepRun : SpeedControlState → List ℚ → Prop
  | _, [] => True
  | s, t :: ts =>
      s.firstFrameTime ≠ 0 ∧
      s.frameInterval ≤ t - s.preTime ∧
      t - s.preTime < 3/2 * s.frameInterval ∧
      FixedStepRun (tick s t).1 ts

/-- A fixed-step tick does not change `frameInterval` (no tick does). -/
theorem tick_frameInterval (s : SpeedControlState) (t : ℚ) :
    (tick s t).1.frameInterval = s.frameInterval := by
  unfold tick consume
  by_cases h1 : s.firstFrameTime ≠ 0 <;> simp [h1]
  by_cases h2 : t - s.preTime ≥ 3/2 * s.frameInterval <;> simp [h2]
  · by_cases hp : s.paused <;> simp [hp]
    cases hq : s.queue with
    | nil => simp
    | cons c rest => cases rest <;> simp
  · by_cases h3 : t - s.preTime ≥ s.frameInterval <;> simp [h3]
    by_cases hp : s.paused <;> simp [hp]
    cases hq : s.queue <;> simp

/-- A tick in the fixed-step range advances `preTime` by exactly
`frameInterval`. -/
theorem tick_fixedStep_preTime (s : SpeedControlState) (t : ℚ)
    (hf : s.firstFrameTime ≠ 0)
    (h1 : s.frameInterval ≤ t - s.preTime)
    (h2 : t - s.preTime < 3/2 * s.frameInterval) :
    (tick s t).1.preTime = s.preTime + s.frameInterval := by
  unfold tick consume
  simp only [hf, if_pos, ne_eq, not_false_iff]
  have hnot : ¬ (t - s.preTime ≥ 3/2 * s.frameInterval) := by linarith
  simp only [ge_iff_le, hnot, if_neg, not_false_iff, ite_false]
  have hyes : t - s.preTime ≥ s.frameInterval := h1
  simp only [hyes, ge_iff_le, if_pos, ite_true]
  by_cases hp : s.paused <;> simp [hp]
  cases hq : s.queue <;> simp

/-- C1.  With the scheduler started (a first chunk enqueued, so
`firstFrameTime ≠ 0`) and not paused, each tick applies exactly one of three
cases on `elapsed = time - preTime`: `elapsed ≥ 1.5 * frameInterval` pops and
emits the two front chunks in queue order and resets `preTime = time`;
`frameInterval ≤ elapsed < 1.5 * frameInterval` pops and emits exactly one
chunk and advances `preTime` by exactly `frameInterval` (not to `time`);
`elapsed < frameInterval` emits nothing and leaves the whole state, baseline
included, unchanged. -/
theorem spec_C1 (s : SpeedControlState) (t : ℚ)
    (hf : s.firstFrameTime ≠ 0) (hp : s.paused = false) (hT : 0 < s.frameInterval) :
    (t - s.preTime ≥ 3/2 * s.frameInterval → 2 ≤ s.queue.length →
        (tick s t).2 = s.queue.take 2 ∧ (tick s t).1.queue = s.queue.drop 2 ∧
        (tick s t).1.preTime = t) ∧
    (s.frameInterval ≤ t - s.preTime → t - s.preTime < 3/2 * s.frameInterval →
        1 ≤ s.queue.length →
        (tick s t).2 = s.queue.take 1 ∧ (tick s t).1.queue = s.queue.drop 1 ∧
        (tick s t).1.preTime = s.preTime + s.frameInterval) ∧
    (t - s.preTime < s.frameInterval → (tick s t).2 = [] ∧ (tick s t).1 = s) := by
  refine ⟨?_, ?_, ?_⟩
  · intro h1 hq
    obtain ⟨a, b, q2, hqs⟩ : ∃ a b q2, s.queue = a :: b :: q2 := by
      cases hqs : s.queue with
      | nil => rw [hqs] at hq; simp at hq
      | cons a q1 =>
          cases hq1 : q1 with
          | nil => rw [hqs, hq1] at hq; simp at hq
          | cons b q2 => exact ⟨a, b, q2, rfl⟩
    unfold tick consume
    simp [hf, hp, h1, hqs]
  · intro h1 h2 hq
    obtain ⟨a, q1, hqs⟩ : ∃ a q1, s.queue = a :: q1 := by
      cases hqs : s.queue with
      | nil => rw [hqs] at hq; simp at hq
      | cons a q1 => exact ⟨a, q1, rfl⟩
    have hno : ¬ (t - s.preTime ≥ 3/2 * s.frameInterval) := by linarith
    unfold tick consume
    simp [hf, hp, hno, h1, hqs]
  · intro h1
    have hno : ¬ (t - s.preTime ≥ 3/2 * s.frameInterval) := by linarith
    have hno2 : ¬ (t - s.preTime ≥ s.frameInterval) := by linarith
    unfold tick
    simp [hf, hno, hno2]

/-- Witness for C1: with target interval 40, baseline 0 and queue
`[1, 2, 3]`, a tick at `t = 70` (elapsed 70 ≥ 1.5 × 40) emits exactly the
two front chunks and resets the baseline to 70. -/
theorem spec_C1_witness :
    (tick { queue := [1, 2, 3], preTime := 0, frameInterval := 40,
            firstFrameTime := 5, paused := false } 70).2 = [1, 2] ∧
    (tick { queue := [1, 2, 3], preTime := 0, frameInterval := 40,
            firstFrameTime := 5, paused := false } 70).1.preTime = 70 := by
  have h := (spec_C1
      { queue := [1, 2, 3], preTime := 0, frameInterval := 40,
        firstFrameTime := 5, paused := false } 70
      (by norm_num) rfl (by norm_num)).1 (by norm_num) (by norm_num)
  exact ⟨by simpa using h.1, h.2.2⟩

/-- Under a run of fixed-step ticks the baseline advances by exactly
`frameInterval` per tick, independent of the tick times themselves. -/
theorem fixedStepRun_preTime :
    ∀ (ts : List ℚ) (s : SpeedControlState), FixedStepRun s ts →
      (runTicks s ts).preTime = s.preTime + ts.length * s.frameInterval := by
  intro ts
  induction ts with
  | nil => intro s _; simp [runTicks]
  | cons t ts ih =>
      intro s h
      obtain ⟨hf, h1, h2, hrest⟩ := h
      have hstep := tick_fixedStep_preTime s t hf h1 h2
      have hTi := tick_frameInterval s t
      have := ih (tick s t).1 hrest
      rw [runTicks, this, hstep, hTi]
      simp only [List.length_cons, Nat.cast_add, Nat.cast_one]
      ring

/-- C2.  Starting from a fresh scheduler whose configured interval is `T`,
after the first enqueue at wall-clock `t0` and any `N` consecutive ticks
that each take the fixed-step branch, the baseline equals `t0 + N * T`,
independent of the exact wall-clock times at which the ticks fired. -/
theorem spec_C2 (T t0 : ℚ) (c : Nat) (ts : List ℚ)
    (h : FixedStepRun (addEncodeVideoChunk { initSpeedControl with frameInterval := T } c t0) ts) :
    (runTicks (addEncodeVideoChunk { initSpeedControl with frameInterval := T } c t0) ts).preTime
      = t0 + ts.length * T := by
  have hs : addEncodeVideoChunk { initSpeedControl with frameInterval := T } c t0
      = { queue := [c], preTime := t0, frameInterval := T, firstFrameTime := t0,
          paused := false } := by
    simp [addEncodeVideoChunk, initSpeedControl]
  rw [hs] at h ⊢
  simpa using fixedStepRun_preTime ts _ h

/-- Witness for C2: interval 40, first enqueue at 100, two fixed-step ticks
observed at 141 and 185 (elapsed 41 and 45) leave the baseline at
100 + 2 × 40 = 180. -/
theorem spec_C2_witness :
    (runTicks (addEncodeVideoChunk { initSpeedControl with frameInterval := 40 } 7 100)
        [141, 185]).preTime = 180 := by
  have h := spec_C2 40 100 7 [141, 185] ?_
  · exact h.trans (by norm_num)
  · refine ⟨by norm_num [addEncodeVideoChunk, initSpeedControl], ?_, ?_, ?_⟩ <;>
      norm_num [addEncodeVideoChunk, initSpeedControl, tick, consume, FixedStepRun]

/-! ## Bitstream scanners (part_002: `isH264Keyframe`, `isH265Keyframe`,
`detectKeyframe`) -/

/-- Read byte `i` of a buffer; out-of-range reads yield the sentinel 256,
which like JavaScript's `undefined` is equal to neither 0 nor 1. -/
def byteAt (d : List Nat) (i : Nat) : Nat := d.getD i 256

/-- The 4-byte start-code test `00 00 00 01` at offset `i`. -/
def sc4At (d : List Nat) (i : Nat) : Bool :=
  byteAt d i == 0 && byteAt d (i+1) == 0 && byteAt d (i+2) == 0 && byteAt d (i+3) == 1

/-- The 3-byte start-code test `00 00 01` at offset `i`. -/
def sc3At (d : List Nat) (i : Nat) : Bool :=
  byteAt d i == 0 && byteAt d (i+1) == 0 && byteAt d (i+2) == 1

/-- H.264 NAL types treated as keyframe signals: the low 5 bits of the
byte after the start code are 5 (IDR), 7 (SPS) or 8 (PPS). -/
def h264TypeOK (b : Nat) : Bool :=
  (b &&& 0x1F == 5) || (b &&& 0x1F == 7) || (b &&& 0x1F == 8)

/-- H.265 NAL types treated as keyframe signals: bits 1–6 of the byte after
the start code are 19–20 (IDR) or 32–34 (VPS/SPS/PPS). -/
def h265TypeOK (b : Nat) : Bool :=
  let t := (b >>> 1) &&& 0x3F
  (decide (19 ≤ t) && decide (t ≤ 20)) || (decide (32 ≤ t) && decide (t ≤ 34))

/-- The scan loop shared by `isH264Keyframe` and `isH265Keyframe`
(the two sources duplicate this loop verbatim, differing only in the
NAL-type test `typeOK`): for `i` from the current index while
`i < searchLen - 4`, check the 4-byte then the 3-byte start code; on a
match, if the byte after the start code is in range and satisfies
`typeOK`, return true, otherwise keep scanning at `i + 1`.
Structural recursion on an explicit fuel counter (the callers pass enough
fuel for the loop to run to its bound). -/
def keyScanLoop (typeOK : Nat → Bool) (d : List Nat) (searchLen : Nat) :
    Nat → Nat → Bool
  | 0, _ => false
  | fuel + 1, i =>
    if i < searchLen - 4 then
      if sc4At d i then
        (if i + 4 < d.length ∧ typeOK (byteAt d (i+4)) = true then true
         else keyScanLoop typeOK d searchLen fuel (i+1))
      else if sc3At d i then
        (if i + 3 < d.length ∧ typeOK (byteAt d (i+3)) = true then true
         else keyScanLoop typeOK d searchLen fuel (i+1))
      else keyScanLoop typeOK d searchLen fuel (i+1)
    else false

/-- `isH264Keyframe(data, maxSearchBytes)`: scan for a keyframe-signalling
NAL within the first `min(data.length, maxSearchBytes)` bytes. -/
def isH264Keyframe (d : List Nat) (maxSearchBytes : Nat) : Bool :=
  let searchLen := min d.length maxSearchBytes
  keyScanLoop h264TypeOK d searchLen searchLen 0

/-- `isH265Keyframe(data, maxSearchBytes)`: same bounded scan with the
H.265 NAL-type test. -/
def isH265Keyframe (d : List Nat) (maxSearchBytes : Nat) : Bool :=
  let searchLen := min d.length maxSearchBytes
  keyScanLoop h265TypeOK d searchLen searchLen 0

/-- The codec tag union `'h264' | 'h265' | 'vp9' | 'vp8'`. -/
inductive VideoCodec where
  | h264 | h265 | vp9 | vp8
  deriving Repr, DecidableEq

/-- `detectKeyframe(codec, data, maxSearchBytes)`: dispatch on the codec;
VP8/VP9 detection is unimplemented and returns false. -/
def detectKeyframe (codec : VideoCodec) (d : List Nat) (maxSearchBytes : Nat) : Bool :=
  match codec with
  | .h264 => isH264Keyframe d maxSearchBytes
  | .h265 => isH265Keyframe d maxSearchBytes
  | .vp9 => false
  | .vp8 => false

/-- The scan loop is a no-op whenever its bound is at most 4. -/
theorem keyScanLoop_of_small (ok : Nat → Bool) (d : List Nat) (sl fuel i : Nat)
    (hsl : sl ≤ 4) : keyScanLoop ok d sl fuel i = false := by
  cases fuel with
  | zero => rfl
  | succ fuel =>
      have : ¬ (i < sl - 4) := by omega
      simp [keyScanLoop, this]

/-- On payloads shorter than 5 bytes every codec's scan reports non-key. -/
theorem detectKeyframe_short (codec : VideoCodec) (d : List Nat) (maxSearchBytes : Nat)
    (hshort : d.length < 5) : detectKeyframe codec d maxSearchBytes = false := by
  cases codec <;>
    simp [detectKeyframe, isH264Keyframe, isH265Keyframe] <;>
    exact keyScanLoop_of_small _ _ _ _ _ (by omega)

/-! ## Parameter-set extraction (codec-description.ts) -/

/-- The combined start-code test used by the inner `nalEnd` search loop
(`(3-byte) || (4-byte)` at offset `j`). -/
def nextSCAt (d : List Nat) (j : Nat) : Bool := sc3At d j || sc4At d j

/-- The inner loop of the extractors: starting at `j`, find the next start
code; return its offset, or `data.length` when the loop bound
`j < data.length - 3` is reached with no match.  Fuel-based structural
recursion; callers pass fuel `d.length`. -/
def findNalEnd (d : List Nat) : Nat → Nat → Nat
  | 0, _ => d.length
  | fuel + 1, j =>
    if j < d.length - 3 then
      (if nextSCAt d j then j else findNalEnd d fuel (j+1))
    else d.length

/-- `data.subarray(a, b)` for `a ≤ b`: the bytes at offsets `[a, b)`. -/
def nalSlice (d : List Nat) (a b : Nat) : List Nat := (d.drop a).take (b - a)

/-- H.264 parameter-set test of the extractor: NAL type (low 5 bits) is
7 (SPS) or 8 (PPS). -/
def h264Keep (b : Nat) : Bool := (b &&& 0x1F == 7) || (b &&& 0x1F == 8)

/-- H.265 parameter-set test of the extractor: NAL type (bits 1–6) is
32–34 (VPS/SPS/PPS). -/
def h265Keep (b : Nat) : Bool :=
  let t := (b >>> 1) &&& 0x3F
  decide (32 ≤ t) && decide (t ≤ 34)

/-- The NAL-start offset chosen by the outer scan loop at a detected start
code: `i + 4` after a 4-byte code (checked first), else `i + 3`. -/
def nsOf (d : List Nat) (i : Nat) : Nat := if sc4At d i then i + 4 else i + 3

/-- The outer `while (i < data.length - 4)` loop shared by
`extractH264Description` and `extractH265Description` (the two sources
duplicate it verbatim, differing only in the NAL-type filter `keep`):
at each detected start code compute `nalStart`, search for `nalEnd`,
collect `data.subarray(nalStart, nalEnd)` when `nalStart < nalEnd`,
`nalStart < data.length` and the NAL byte passes `keep`, then continue
from `i = nalStart`; with no start code at `i`, advance to `i + 1`.
Fuel-based structural recursion; callers pass fuel `d.length`. -/
def extractLoop (keep : Nat → Bool) (d : List Nat) :
    Nat → Nat → List (List Nat) → List (List Nat)
  | 0, _, acc => acc
  | fuel + 1, i, acc =>
    if i < d.length - 4 then
      if sc4At d i || sc3At d i then
        let nalStart := nsOf d i
        let nalEnd := findNalEnd d d.length nalStart
        let acc' :=
          if nalStart < nalEnd ∧ nalStart < d.length ∧ keep (byteAt d nalStart) = true
          then acc ++ [nalSlice d nalStart nalEnd] else acc
        extractLoop keep d fuel nalStart acc'
      else extractLoop keep d fuel (i+1) acc
    else acc

/-- All parameter-set NAL units collected by a full scan of the payload. -/
def extractNalUnits (keep : Nat → Bool) (d : List Nat) : List (List Nat) :=
  extractLoop keep d d.length 0 []

/-- High byte of the 2-byte big-endian length written before each NAL:
`(nal.length >> 8) & 0xFF`. -/
def lenByteHi (n : Nat) : Nat := (n >>> 8) &&& 0xFF

/-- Low byte of the 2-byte big-endian length: `nal.length & 0xFF`. -/
def lenByteLo (n : Nat) : Nat := n &&& 0xFF

/-- Serialize the collected NAL units: each is preceded by its 2-byte
big-endian length, concatenated in discovery order with no separators. -/
def buildDescription (units : List (List Nat)) : List Nat :=
  (units.map (fun u => lenByteHi u.length :: lenByteLo u.length :: u)).flatten

/-- `extractH264Description`: full scan for SPS/PPS; `none` when no
parameter-set unit is found. -/
def extractH264Description (d : List Nat) : Option (List Nat) :=
  let units := extractNalUnits h264Keep d
  if units.isEmpty then none else some (buildDescription units)

/-- `extractH265Description`: full scan for VPS/SPS/PPS; `none` when no
parameter-set unit is found. -/
def extractH265Description (d : List Nat) : Option (List Nat) :=
  let units := extractNalUnits h265Keep d
  if units.isEmpty then none else some (buildDescription units)

/-! ## Ingestion loop (useVideoDemuxDecoder.ts: `processVideoFile`) -/

/-- `AVPacketFlags.AV_PKT_FLAG_KEY`. -/
def AV_PKT_FLAG_KEY : Nat := 1

/-- One demuxed packet: stream index, container flags, payload bytes
(`pkt.size` is the payload length). -/
structure AVPkt where
  streamIndex : Int
  flags : Nat
  payload : List Nat
  deriving Repr, DecidableEq

/-- The keyframe classification the packet loop records for a video packet:
start from the container flag (`!!(pkt.flags & AV_PKT_FLAG_KEY)`); when the
payload is larger than 4 bytes, run `detectKeyframe` over the first
`min(pkt.size, 100)` bytes and OR the result in. -/
def classifyPacketKeyframe (codec : VideoCodec) (flags : Nat) (payload : List Nat) : Bool :=
  let fromFlag := flags &&& AV_PKT_FLAG_KEY != 0
  if payload.length > 4 then
    fromFlag || detectKeyframe codec (payload.take (min payload.length 100)) 100
  else fromFlag

/-- The aggregate counters of the packet loop. -/
structure IngestCounters where
  totalPackets : Nat
  videoPackets : Nat
  keyframes : Nat
  deriving Repr, DecidableEq

/-- One iteration of the packet loop, counters only: `packetCount++` for
every packet; for packets of the chosen video stream additionally
`videoPacketCount++` and, when the recorded classification is keyframe,
`keyframeCount++`. -/
def ingestStep (codec : VideoCodec) (videoStreamIndex : Int)
    (s : IngestCounters) (p : AVPkt) : IngestCounters :=
  let s1 := { s with totalPackets := s.totalPackets + 1 }
  if 0 ≤ videoStreamIndex ∧ p.streamIndex = videoStreamIndex then
    let s2 := { s1 with videoPackets := s1.videoPackets + 1 }
    if classifyPacketKeyframe codec p.flags p.payload then
      { s2 with keyframes := s2.keyframes + 1 }
    else s2
  else s1

/-- Run the packet loop over a packet sequence starting from zeroed
counters. -/
def runIngest (codec : VideoCodec) (videoStreamIndex : Int) (packets : List AVPkt) :
    IngestCounters :=
  packets.foldl (ingestStep codec videoStreamIndex) ⟨0, 0, 0⟩

/-- The `keyframeRatio` written into the final stats:
`videoPackets > 0 ? keyframes / videoPackets * 100 : 0`. -/
def keyframeRatio (s : IngestCounters) : ℚ :=
  if s.videoPackets > 0 then (s.keyframes : ℚ) / (s.videoPackets : ℚ) * 100 else 0

/-- Closed form of one packet-loop iteration: the total counter always
gains 1, the video counter gains 1 exactly on packets of the chosen video
stream, and the keyframe counter gains 1 exactly on video packets whose
recorded classification is keyframe. -/
theorem ingestStep_eq (codec : VideoCodec) (v : Int) (s : IngestCounters) (p : AVPkt) :
    ingestStep codec v s p =
      { totalPackets := s.totalPackets + 1,
        videoPackets := s.videoPackets + (if 0 ≤ v ∧ p.streamIndex = v then 1 else 0),
        keyframes := s.keyframes +
          (if (0 ≤ v ∧ p.streamIndex = v) ∧
              classifyPacketKeyframe codec p.flags p.payload = true then 1 else 0) } := by
  unfold ingestStep
  by_cases h1 : 0 ≤ v ∧ p.streamIndex = v <;>
    by_cases h2 : classifyPacketKeyframe codec p.flags p.payload = true <;>
    simp [h1, h2]

/-- C4.  At every point of ingestion (after any prefix of the packet
sequence, the final stats included) the counters satisfy
`totalPackets ≥ videoPackets ≥ keyframes ≥ 0`. -/
theorem spec_C4 (codec : VideoCodec) (videoStreamIndex : Int) (packets : List AVPkt)
    (n : Nat) :
    (runIngest codec videoStreamIndex (packets.take n)).keyframes ≤
      (runIngest codec videoStreamIndex (packets.take n)).videoPackets ∧
    (runIngest codec videoStreamIndex (packets.take n)).videoPackets ≤
      (runIngest codec videoStreamIndex (packets.take n)).totalPackets ∧
    0 ≤ (runIngest codec videoStreamIndex (packets.take n)).keyframes := by
  have main : ∀ (ps : List AVPkt) (s : IngestCounters),
      s.keyframes ≤ s.videoPackets → s.videoPackets ≤ s.totalPackets →
      (ps.foldl (ingestStep codec videoStreamIndex) s).keyframes ≤
        (ps.foldl (ingestStep codec videoStreamIndex) s).videoPackets ∧
      (ps.foldl (ingestStep codec videoStreamIndex) s).videoPackets ≤
        (ps.foldl (ingestStep codec videoStreamIndex) s).totalPackets := by
    intro ps
    induction ps with
    | nil => intro s h1 h2; exact ⟨h1, h2⟩
    | cons p ps ih =>
        intro s h1 h2
        rw [List.foldl_cons]
        refine ih _ ?_ ?_ <;> rw [ingestStep_eq] <;> dsimp only <;> split_ifs <;> omega
  have h := main (packets.take n) ⟨0, 0, 0⟩ (Nat.le_refl 0) (Nat.le_refl 0)
  exact ⟨h.1, h.2, Nat.zero_le _⟩

/-- The spec's reference input: 1000 packets, 400 of them on the video
stream (index 0), 40 of those flagged as keyframes; empty payloads so the
bitstream scan is skipped and the container flag decides. -/
def scenarioPackets : List AVPkt :=
  List.replicate 40 { streamIndex := 0, flags := 1, payload := [] } ++
  List.replicate 360 { streamIndex := 0, flags := 0, payload := [] } ++
  List.replicate 600 { streamIndex := 1, flags := 0, payload := [] }

set_option maxRecDepth 10000 in
/-- Counter values on the reference input. -/
theorem runIngest_scenario :
    runIngest VideoCodec.h264 0 scenarioPackets =
      { totalPackets := 1000, videoPackets := 400, keyframes := 40 } := by
  decide

/-- C5.  `keyframeRatio` equals `keyframes / videoPackets * 100` whenever
`videoPackets > 0` and equals 0 when `videoPackets = 0`; the reference
input with 400 video packets, 40 of them keyframes, yields ratio 10. -/
theorem spec_C5 :
    (∀ (codec : VideoCodec) (v : Int) (ps : List AVPkt),
      (0 < (runIngest codec v ps).videoPackets →
        keyframeRatio (runIngest codec v ps) =
          ((runIngest codec v ps).keyframes : ℚ) / ((runIngest codec v ps).videoPackets : ℚ) * 100) ∧
      ((runIngest codec v ps).videoPackets = 0 → keyframeRatio (runIngest codec v ps) = 0)) ∧
    keyframeRatio (runIngest VideoCodec.h264 0 scenarioPackets) = 10 := by
  constructor
  · intro codec v ps
    constructor
    · intro h; simp [keyframeRatio, h]
    · intro h; simp [keyframeRatio, h]
  · rw [runIngest_scenario, keyframeRatio]
    norm_num

/-- Witness for C5: the general part applied at the reference input. -/
theorem spec_C5_witness :
    keyframeRatio (runIngest VideoCodec.h264 0 scenarioPackets) =
      ((runIngest VideoCodec.h264 0 scenarioPackets).keyframes : ℚ) /
        ((runIngest VideoCodec.h264 0 scenarioPackets).videoPackets : ℚ) * 100 := by
  refine ((spec_C5.1 VideoCodec.h264 0 scenarioPackets).1 ?_)
  rw [runIngest_scenario]
  norm_num

/-! ## The bounded-prefix property of the keyframe scan -/

/-- Reading inside a taken front segment reads the original buffer. -/
theorem byteAt_take (d : List Nat) (n j : Nat) (h : j < n) :
    byteAt (d.take n) j = byteAt d j := by
  simp [byteAt, List.getD_eq_getElem?_getD, List.getElem?_take_of_lt h]

/-- The scan loop reads only bytes below its bound: two buffers of length
at least `L` that agree below `L` produce identical scans bounded by `L`. -/
theorem keyScanLoop_congr (ok : Nat → Bool) (d1 d2 : List Nat) (L : Nat)
    (hL1 : L ≤ d1.length) (hL2 : L ≤ d2.length)
    (hB : ∀ j, j < L → byteAt d1 j = byteAt d2 j) :
    ∀ (fuel i : Nat), keyScanLoop ok d1 L fuel i = keyScanLoop ok d2 L fuel i := by
  intro fuel
  induction fuel with
  | zero => intro i; rfl
  | succ fuel ih =>
      intro i
      by_cases hi : i < L - 4
      · have h4 : i + 4 < L := by omega
        have e0 := hB i (by omega)
        have e1 := hB (i+1) (by omega)
        have e2 := hB (i+2) (by omega)
        have e3 := hB (i+3) (by omega)
        have e4 := hB (i+4) (by omega)
        have hsc4 : sc4At d1 i = sc4At d2 i := by rw [sc4At, sc4At, e0, e1, e2, e3]
        have hsc3 : sc3At d1 i = sc3At d2 i := by rw [sc3At, sc3At, e0, e1, e2]
        have l14 : i + 4 < d1.length := by omega
        have l24 : i + 4 < d2.length := by omega
        have l13 : i + 3 < d1.length := by omega
        have l23 : i + 3 < d2.length := by omega
        simp only [keyScanLoop, if_pos hi, hsc4, hsc3, e3, e4, ih,
          and_iff_right l14, and_iff_right l24, and_iff_right l13, and_iff_right l23]
      · simp only [keyScanLoop, if_neg hi]

/-- The scan verdict with bound 100 depends only on the first 100 bytes. -/
theorem detectKeyframe_take100 (codec : VideoCodec) (d : List Nat) :
    detectKeyframe codec (d.take 100) 100 = detectKeyframe codec d 100 := by
  have hlen : (d.take 100).length = min d.length 100 := by
    rw [List.length_take, Nat.min_comm]
  have hmin : min (d.take 100).length 100 = min d.length 100 := by
    rw [hlen]; omega
  have hcongr : ∀ (ok : Nat → Bool),
      keyScanLoop ok (d.take 100) (min d.length 100) (min d.length 100) 0 =
      keyScanLoop ok d (min d.length 100) (min d.length 100) 0 := by
    intro ok
    refine keyScanLoop_congr ok (d.take 100) d (min d.length 100) (by omega) (by omega) ?_ _ _
    intro j hj
    exact byteAt_take d 100 j (by omega)
  cases codec <;>
    simp only [detectKeyframe, isH264Keyframe, isH265Keyframe, hmin] <;>
    exact hcongr _

/-- One unfolding of the keyframe scan loop. -/
theorem keyScanLoop_succ (ok : Nat → Bool) (d : List Nat) (sl f i : Nat) :
    keyScanLoop ok d sl (f + 1) i =
      if i < sl - 4 then
        if sc4At d i then
          (if i + 4 < d.length ∧ ok (byteAt d (i+4)) = true then true
           else keyScanLoop ok d sl f (i+1))
        else if sc3At d i then
          (if i + 3 < d.length ∧ ok (byteAt d (i+3)) = true then true
           else keyScanLoop ok d sl f (i+1))
        else keyScanLoop ok d sl f (i+1)
      else false := rfl

/-- The test one scan-loop iteration performs at offset `i`: a 4-byte
(checked first) or 3-byte start code there whose following NAL byte is in
range and passes the family's type test — a keyframe/parameter-set
marker. -/
def scanHitAt (ok : Nat → Bool) (d : List Nat) (i : Nat) : Bool :=
  if sc4At d i then decide (i + 4 < d.length) && ok (byteAt d (i+4))
  else if sc3At d i then decide (i + 3 < d.length) && ok (byteAt d (i+3))
  else false

/-- A keyframe/parameter-set marker of the given codec family at offset
`i` of the payload (the VP8/VP9 scan recognizes no markers at all). -/
def scanHit (codec : VideoCodec) (d : List Nat) (i : Nat) : Bool :=
  match codec with
  | .h264 => scanHitAt h264TypeOK d i
  | .h265 => scanHitAt h265TypeOK d i
  | .vp9 => false
  | .vp8 => false

/-- Soundness of the scan loop: a true verdict exhibits a marker at some
offset strictly below the loop bound `searchLen - 4`. -/
theorem keyScanLoop_sound (ok : Nat → Bool) (d : List Nat) (sl : Nat) :
    ∀ (fuel i : Nat), keyScanLoop ok d sl fuel i = true →
      ∃ p, i ≤ p ∧ p < sl - 4 ∧ scanHitAt ok d p = true := by
  intro fuel
  induction fuel with
  | zero => intro i h; exact Bool.noConfusion h
  | succ fuel ih =>
      intro i h
      rw [keyScanLoop_succ] at h
      by_cases hi : i < sl - 4
      · rw [if_pos hi] at h
        by_cases h4 : sc4At d i = true
        · rw [if_pos h4] at h
          by_cases hcond : i + 4 < d.length ∧ ok (byteAt d (i+4)) = true
          · refine ⟨i, Nat.le_refl i, hi, ?_⟩
            rw [scanHitAt, if_pos h4, Bool.and_eq_true]
            exact ⟨by simpa using hcond.1, hcond.2⟩
          · rw [if_neg hcond] at h
            obtain ⟨p, hp1, hp2, hp3⟩ := ih (i+1) h
            exact ⟨p, by omega, hp2, hp3⟩
        · rw [if_neg h4] at h
          by_cases h3 : sc3At d i = true
          · rw [if_pos h3] at h
            by_cases hcond : i + 3 < d.length ∧ ok (byteAt d (i+3)) = true
            · refine ⟨i, Nat.le_refl i, hi, ?_⟩
              rw [scanHitAt, if_neg h4, if_pos h3, Bool.and_eq_true]
              exact ⟨by simpa using hcond.1, hcond.2⟩
            · rw [if_neg hcond] at h
              obtain ⟨p, hp1, hp2, hp3⟩ := ih (i+1) h
              exact ⟨p, by omega, hp2, hp3⟩
          · rw [if_neg h3] at h
            obtain ⟨p, hp1, hp2, hp3⟩ := ih (i+1) h
            exact ⟨p, by omega, hp2, hp3⟩
      · rw [if_neg hi] at h
        exact Bool.noConfusion h

/-- C7.  The routing/statistics keyframe scan is bounded: for every codec
family the verdict is a function of the first 100 payload bytes alone —
two payloads agreeing on their first 100 bytes get the same verdict, and
every payload gets the verdict of its own 100-byte front segment — and,
for every codec family and every payload, whenever every
keyframe/parameter-set marker (`scanHit`: start code plus passing
NAL-type byte) begins at or beyond offset 100, the scan reports
non-key. -/
theorem spec_C7 :
    (∀ (codec : VideoCodec) (d1 d2 : List Nat), d1.take 100 = d2.take 100 →
        detectKeyframe codec d1 100 = detectKeyframe codec d2 100) ∧
    (∀ (codec : VideoCodec) (d : List Nat),
        detectKeyframe codec d 100 = detectKeyframe codec (d.take 100) 100) ∧
    (∀ (codec : VideoCodec) (d : List Nat),
        (∀ p, scanHit codec d p = true → 100 ≤ p) →
        detectKeyframe codec d 100 = false) := by
  refine ⟨?_, ?_, ?_⟩
  · intro codec d1 d2 h
    rw [← detectKeyframe_take100 codec d1, ← detectKeyframe_take100 codec d2, h]
  · intro codec d
    exact (detectKeyframe_take100 codec d).symm
  · intro codec d hm
    cases codec
    case h264 =>
      cases hk : isH264Keyframe d 100
      · exact hk
      · exfalso
        have h' : keyScanLoop h264TypeOK d (min d.length 100) (min d.length 100) 0 =
            true := hk
        obtain ⟨p, -, hp2, hp3⟩ :=
          keyScanLoop_sound h264TypeOK d (min d.length 100) (min d.length 100) 0 h'
        have h100 : 100 ≤ p := hm p hp3
        omega
    case h265 =>
      cases hk : isH265Keyframe d 100
      · exact hk
      · exfalso
        have h' : keyScanLoop h265TypeOK d (min d.length 100) (min d.length 100) 0 =
            true := hk
        obtain ⟨p, -, hp2, hp3⟩ :=
          keyScanLoop_sound h265TypeOK d (min d.length 100) (min d.length 100) 0 h'
        have h100 : 100 ≤ p := hm p hp3
        omega
    case vp9 => rfl
    case vp8 => rfl

set_option maxRecDepth 1000000 in
/-- Witness for C7: two concrete payloads differing only beyond byte 100
get the same verdict, and a payload whose only marker — an IDR unit right
after 100 zero bytes — begins at offset 100 is classified non-key. -/
theorem spec_C7_witness :
    detectKeyframe VideoCodec.h264 (List.replicate 101 3) 100 =
      detectKeyframe VideoCodec.h264 (List.replicate 100 3 ++ [4]) 100 ∧
    detectKeyframe VideoCodec.h264 (List.replicate 100 0 ++ [0, 0, 0, 1, 0x65]) 100 = false := by
  constructor
  · exact spec_C7.1 VideoCodec.h264 (List.replicate 101 3)
      (List.replicate 100 3 ++ [4]) (by decide)
  · refine spec_C7.2.2 VideoCodec.h264 (List.replicate 100 0 ++ [0, 0, 0, 1, 0x65]) ?_
    intro p hp
    by_cases hc : p < 100
    · have hall : ∀ q, q < 100 →
          scanHit VideoCodec.h264 (List.replicate 100 0 ++ [0, 0, 0, 1, 0x65]) q =
            false := by decide
      rw [hall p hc] at hp
      exact Bool.noConfusion hp
    · omega

/-- C3.  The keyframe classification recorded for a video packet equals the
logical OR of the container `AV_PKT_FLAG_KEY` bit and the bitstream scan of
the full packet payload — for arbitrary payload sizes, the scan's 100-byte
read window and the `size > 4` guard notwithstanding. -/
theorem spec_C3 (codec : VideoCodec) (flags : Nat) (payload : List Nat) :
    classifyPacketKeyframe codec flags payload =
      ((flags &&& AV_PKT_FLAG_KEY != 0) || detectKeyframe codec payload 100) := by
  rw [classifyPacketKeyframe]
  by_cases h : payload.length > 4
  · have htake : payload.take (min payload.length 100) = payload.take 100 := by
      rcases Nat.le_total payload.length 100 with hle | hle
      · rw [Nat.min_eq_left hle, List.take_of_length_le (Nat.le_refl _),
          List.take_of_length_le hle]
      · rw [Nat.min_eq_right hle]
    rw [if_pos h, htake, detectKeyframe_take100]
  · rw [if_neg h]
    rw [detectKeyframe_short codec payload 100 (by omega)]
    simp

/-- C10.  For every codec family and every payload shorter than 5 bytes the
keyframe scan returns false — the start-code search loop never executes —
for any search bound, so such packets are classified by the container flag
alone. -/
theorem spec_C10 (codec : VideoCodec) (d : List Nat) (maxSearchBytes : Nat)
    (hshort : d.length < 5) :
    detectKeyframe codec d maxSearchBytes = false ∧
    ∀ (flags : Nat),
      classifyPacketKeyframe codec flags d = (flags &&& AV_PKT_FLAG_KEY != 0) := by
  refine ⟨detectKeyframe_short codec d maxSearchBytes hshort, ?_⟩
  intro flags
  have hng : ¬ (d.length > 4) := by omega
  rw [classifyPacketKeyframe, if_neg hng]

/-- Witness for C10: a 4-byte H.264 payload starting with a 3-byte start
code and an IDR byte is still reported as non-key by the scan, and a
flagged packet with that payload is classified by the flag alone. -/
theorem spec_C10_witness :
    detectKeyframe VideoCodec.h264 [0, 0, 1, 0x65] 100 = false ∧
    classifyPacketKeyframe VideoCodec.h264 1 [0, 0, 1, 0x65] = true := by
  have h := spec_C10 VideoCodec.h264 [0, 0, 1, 0x65] 100 (by decide)
  exact ⟨h.1, by rw [h.2 1]; decide⟩

/-! ## Stream analysis and player creation (useVideoDemuxDecoder.ts,
lines 214–283) -/

/-- A stream descriptor as populated by `analyzeStreams`:
`codecpar.codecType` (0 = video), the codec name reported by
`dumpCodecName`, dimensions, and the out-of-band `extradata` bytes when
present (`extradata && extradataSize > 0`). -/
structure StreamDesc where
  codecType : Nat
  codecName : String
  width : Nat
  height : Nat
  extradata : Option (List Nat)
  deriving Repr, DecidableEq

/-- The video-stream discovery loop: scan streams in index order and return
the index of the first stream whose `codecpar.codecType` is 0, or the
sentinel -1. -/
def findVideoStreamIndexAux : List StreamDesc → Nat → Int
  | [], _ => -1
  | s :: rest, i => if s.codecType = 0 then Int.ofNat i else findVideoStreamIndexAux rest (i + 1)

/-- `videoStreamIndex` after the discovery loop. -/
def findVideoStreamIndex (streams : List StreamDesc) : Int :=
  findVideoStreamIndexAux streams 0

/-- The fatal errors thrown between stream analysis and decoding. -/
inductive DemuxError where
  | noVideoStream
  | noStreamInfo
  deriving Repr, DecidableEq

/-- Decoder-facing actions the run performs after analysis. -/
inductive PipeEvent where
  | playerCreated
  deriving Repr, DecidableEq

/-- The control flow of `processVideoFile` from the end of stream analysis
up to the packet loop: find the video stream (throwing `noVideoStream` when
none has video role, before any decoder-facing work), read its parameters,
resolve the codec tag (`forceCodecType` wins, else the reported codec
name), take `extradata` as the description when present, and create the
`WebcodecPlayer` now unless the description is still missing (in which case
creation is deferred to the first keyframe).  Returns the decoder-facing
events performed together with the outcome. -/
def runAfterAnalysis (streams : List StreamDesc) (forceCodecType : Option VideoCodec) :
    List PipeEvent × Except DemuxError Int :=
  let vIdx := findVideoStreamIndex streams
  if vIdx = -1 then ([], .error .noVideoStream)
  else
    match streams.get? vIdx.toNat with
    | none => ([], .error .noStreamInfo)
    | some vs =>
      let _codec := forceCodecType.getD (if vs.codecName.toLower = "h264" then .h264 else .h265)
      match vs.extradata with
      | none => ([], .ok vIdx)
      | some _ => ([.playerCreated], .ok vIdx)

/-- On a stream list with no video-role stream the discovery loop yields
the -1 sentinel. -/
theorem findVideoStreamIndexAux_none :
    ∀ (streams : List StreamDesc) (i : Nat),
      (∀ s ∈ streams, s.codecType ≠ 0) → findVideoStreamIndexAux streams i = -1 := by
  intro streams
  induction streams with
  | nil => intro i _; rfl
  | cons s rest ih =>
      intro i h
      have hs : s.codecType ≠ 0 := h s (List.mem_cons_self s rest)
      rw [findVideoStreamIndexAux, if_neg hs]
      exact ih (i + 1) fun t ht => h t (List.mem_cons_of_mem s ht)

/-- C9.  When stream analysis finds no stream with the video role, the run
rejects with the NoVideoStream error immediately after analysis: the
outcome is `error noVideoStream` and no decoder-facing event — in
particular no player creation — has been performed. -/
theorem spec_C9 (streams : List StreamDesc) (forceCodecType : Option VideoCodec)
    (h : ∀ s ∈ streams, s.codecType ≠ 0) :
    runAfterAnalysis streams forceCodecType = ([], .error .noVideoStream) ∧
    PipeEvent.playerCreated ∉ (runAfterAnalysis streams forceCodecType).1 := by
  have hidx : findVideoStreamIndex streams = -1 :=
    findVideoStreamIndexAux_none streams 0 h
  constructor
  · rw [runAfterAnalysis, hidx]
    simp
  · rw [runAfterAnalysis, hidx]
    simp

/-- Witness for C9: an audio-only stream list is rejected with
NoVideoStream and triggers no player creation. -/
theorem spec_C9_witness :
    runAfterAnalysis
        [{ codecType := 1, codecName := "aac", width := 0, height := 0, extradata := none }]
        none
      = ([], .error .noVideoStream) := by
  exact (spec_C9
      [{ codecType := 1, codecName := "aac", width := 0, height := 0, extradata := none }]
      none (by decide)).1

/-! ## Scan-loop lemmas for the extractors -/

/-- Reading past a front segment reads the tail. -/
theorem byteAt_append_right (xs ys : List Nat) (k : Nat) :
    byteAt (xs ++ ys) (xs.length + k) = byteAt ys k := by
  rw [byteAt, byteAt, List.getD_eq_getElem?_getD, List.getD_eq_getElem?_getD,
    List.getElem?_append_right (Nat.le_add_right _ _), Nat.add_sub_cancel_left]

/-- Reading inside a front segment reads that segment. -/
theorem byteAt_append_left (xs ys : List Nat) (k : Nat) (h : k < xs.length) :
    byteAt (xs ++ ys) k = byteAt xs k := by
  rw [byteAt, byteAt, List.getD_eq_getElem?_getD, List.getD_eq_getElem?_getD,
    List.getElem?_append_left h]

/-- One unfolding of the inner `nalEnd` search loop. -/
theorem findNalEnd_succ (d : List Nat) (f j : Nat) :
    findNalEnd d (f + 1) j =
      if j < d.length - 3 then
        (if nextSCAt d j then j else findNalEnd d f (j+1))
      else d.length := rfl

/-- Past its bound the inner loop returns `d.length` at any fuel. -/
theorem findNalEnd_exit (d : List Nat) (j : Nat) (h : ¬ j < d.length - 3) :
    ∀ f, findNalEnd d f j = d.length := by
  intro f
  cases f with
  | zero => rfl
  | succ f => rw [findNalEnd_succ, if_neg h]

/-- The inner loop's value does not depend on the fuel once the fuel covers
the remaining iterations. -/
theorem findNalEnd_fuel (d : List Nat) :
    ∀ (f1 f2 j : Nat), d.length - 3 - j ≤ f1 → d.length - 3 - j ≤ f2 →
      findNalEnd d f1 j = findNalEnd d f2 j := by
  intro f1
  induction f1 with
  | zero =>
      intro f2 j h1 _
      have hj : ¬ j < d.length - 3 := by omega
      rw [findNalEnd_exit d j hj, findNalEnd_exit d j hj]
  | succ f1 ih =>
      intro f2 j h1 h2
      by_cases hj : j < d.length - 3
      · cases f2 with
        | zero => omega
        | succ f2 =>
            rw [findNalEnd_succ, findNalEnd_succ, if_pos hj, if_pos hj]
            by_cases hsc : nextSCAt d j
            · rw [if_pos hsc, if_pos hsc]
            · rw [if_neg hsc, if_neg hsc]
              exact ih f2 (j+1) (by omega) (by omega)
      · rw [findNalEnd_exit d j hj, findNalEnd_exit d j hj]

/-- The inner loop never returns an offset below its starting point. -/
theorem findNalEnd_ge (d : List Nat) :
    ∀ (f j : Nat), j ≤ d.length → j ≤ findNalEnd d f j := by
  intro f
  induction f with
  | zero => intro j h; exact h
  | succ f ih =>
      intro j h
      rw [findNalEnd_succ]
      by_cases hj : j < d.length - 3
      · rw [if_pos hj]
        by_cases hsc : nextSCAt d j
        · rw [if_pos hsc]
        · rw [if_neg hsc]
          have := ih (j+1) (by omega)
          omega
      · rw [if_neg hj]; exact h

/-- Both start-code tests require a zero first byte. -/
theorem nextSCAt_eq_false_of_ne_zero (d : List Nat) (j : Nat) (h : byteAt d j ≠ 0) :
    nextSCAt d j = false := by
  have hb : (byteAt d j == 0) = false := by simp [h]
  simp [nextSCAt, sc3At, sc4At, hb]

/-- Starting inside the buffer on a nonzero byte, the inner loop moves
strictly forward. -/
theorem findNalEnd_pos (d : List Nat) (f j : Nat) (hj : j < d.length)
    (hb : byteAt d j ≠ 0) : j < findNalEnd d f j := by
  cases f with
  | zero => exact hj
  | succ f =>
      rw [findNalEnd_succ]
      by_cases hlt : j < d.length - 3
      · rw [if_pos hlt, nextSCAt_eq_false_of_ne_zero d j hb]
        have := findNalEnd_ge d f (j+1) (by omega)
        simpa using by omega
      · rw [if_neg hlt]; exact hj

/-- One canonical-fuel step of the inner loop. -/
theorem findNalEnd_step (d : List Nat) (j : Nat) (hj : j < d.length - 3) :
    findNalEnd d d.length j =
      if nextSCAt d j then j else findNalEnd d d.length (j+1) := by
  obtain ⟨n, hn⟩ : ∃ n, d.length = n + 1 := ⟨d.length - 1, by omega⟩
  conv_lhs => rw [hn]
  rw [findNalEnd_succ, if_pos hj]
  by_cases hsc : nextSCAt d j
  · rw [if_pos hsc, if_pos hsc]
  · rw [if_neg hsc, if_neg hsc]
    exact findNalEnd_fuel d n d.length (j+1) (by omega) (by omega)

/-- The inner loop finds the first start code after its starting point. -/
theorem findNalEnd_found (d : List Nat) :
    ∀ (n a : Nat), a + n < d.length - 3 →
      (∀ k, a ≤ k → k < a + n → nextSCAt d k = false) →
      nextSCAt d (a + n) = true →
      findNalEnd d d.length a = a + n := by
  intro n
  induction n with
  | zero =>
      intro a hlt _ hsc
      rw [findNalEnd_step d a (by omega), if_pos (by simpa using hsc)]
      omega
  | succ n ih =>
      intro a hlt hno hsc
      have h0 : nextSCAt d a = false := hno a (Nat.le_refl a) (by omega)
      rw [findNalEnd_step d a (by omega), h0]
      simp only [Bool.false_eq_true, if_false]
      have e : a + 1 + n = a + (n + 1) := by omega
      rw [← e] at hsc ⊢
      exact ih (a+1) (by omega) (fun k hk1 hk2 => hno k (by omega) (by omega)) hsc

/-- With no start code before the bound, the inner loop returns
`d.length`. -/
theorem findNalEnd_none (d : List Nat) :
    ∀ (n a : Nat), d.length - 3 - a ≤ n →
      (∀ k, a ≤ k → k < d.length - 3 → nextSCAt d k = false) →
      findNalEnd d d.length a = d.length := by
  intro n
  induction n with
  | zero =>
      intro a hn _
      exact findNalEnd_exit d a (by omega) _
  | succ n ih =>
      intro a hn hno
      by_cases ha : a < d.length - 3
      · rw [findNalEnd_step d a ha, hno a (Nat.le_refl a) ha]
        simp only [Bool.false_eq_true, if_false]
        exact ih (a+1) (by omega) (fun k hk1 hk2 => hno k (by omega) hk2)
      · exact findNalEnd_exit d a ha _

/-- One unfolding of the outer extraction loop. -/
theorem extractLoop_succ (keep : Nat → Bool) (d : List Nat) (f i : Nat)
    (acc : List (List Nat)) :
    extractLoop keep d (f + 1) i acc =
      if i < d.length - 4 then
        if sc4At d i || sc3At d i then
          extractLoop keep d f (nsOf d i)
            (if nsOf d i < findNalEnd d d.length (nsOf d i) ∧ nsOf d i < d.length ∧
                keep (byteAt d (nsOf d i)) = true
             then acc ++ [nalSlice d (nsOf d i) (findNalEnd d d.length (nsOf d i))]
             else acc)
        else extractLoop keep d f (i+1) acc
      else acc := rfl

/-- Past its bound the outer loop returns its accumulator at any fuel. -/
theorem extractLoop_exit (keep : Nat → Bool) (d : List Nat) (i : Nat)
    (h : ¬ i < d.length - 4) :
    ∀ (f : Nat) (acc : List (List Nat)), extractLoop keep d f i acc = acc := by
  intro f acc
  cases f with
  | zero => rfl
  | succ f => rw [extractLoop_succ, if_neg h]

/-- The chosen NAL start lies 3 or 4 bytes past the detection point. -/
theorem nsOf_bounds (d : List Nat) (i : Nat) : i + 3 ≤ nsOf d i ∧ nsOf d i ≤ i + 4 := by
  rw [nsOf]; split <;> omega

/-- The outer loop's value does not depend on the fuel once the fuel covers
the remaining iterations. -/
theorem extractLoop_fuel (keep : Nat → Bool) (d : List Nat) :
    ∀ (f1 f2 i : Nat) (acc : List (List Nat)),
      d.length - 4 - i ≤ f1 → d.length - 4 - i ≤ f2 →
      extractLoop keep d f1 i acc = extractLoop keep d f2 i acc := by
  intro f1
  induction f1 with
  | zero =>
      intro f2 i acc h1 _
      have hi : ¬ i < d.length - 4 := by omega
      rw [extractLoop_exit keep d i hi, extractLoop_exit keep d i hi]
  | succ f1 ih =>
      intro f2 i acc h1 h2
      by_cases hi : i < d.length - 4
      · cases f2 with
        | zero => omega
        | succ f2 =>
            rw [extractLoop_succ, extractLoop_succ, if_pos hi, if_pos hi]
            by_cases hsc : (sc4At d i || sc3At d i) = true
            · rw [if_pos hsc, if_pos hsc]
              have hns := nsOf_bounds d i
              exact ih f2 (nsOf d i) _ (by omega) (by omega)
            · rw [if_neg hsc, if_neg hsc]
              exact ih f2 (i+1) acc (by omega) (by omega)
      · rw [extractLoop_exit keep d i hi, extractLoop_exit keep d i hi]

/-- One canonical-fuel step of the outer loop at a detected start code. -/
theorem extractLoop_step_sc (keep : Nat → Bool) (d : List Nat) (i : Nat)
    (acc : List (List Nat)) (hi : i < d.length - 4)
    (hsc : (sc4At d i || sc3At d i) = true) :
    extractLoop keep d d.length i acc =
      extractLoop keep d d.length (nsOf d i)
        (if nsOf d i < findNalEnd d d.length (nsOf d i) ∧ nsOf d i < d.length ∧
            keep (byteAt d (nsOf d i)) = true
         then acc ++ [nalSlice d (nsOf d i) (findNalEnd d d.length (nsOf d i))]
         else acc) := by
  obtain ⟨n, hn⟩ : ∃ n, d.length = n + 1 := ⟨d.length - 1, by omega⟩
  conv_lhs => rw [hn]
  rw [extractLoop_succ, if_pos hi, if_pos hsc]
  exact extractLoop_fuel keep d n d.length _ _ (by omega) (by omega)

/-- One canonical-fuel step of the outer loop with no start code. -/
theorem extractLoop_step_else (keep : Nat → Bool) (d : List Nat) (i : Nat)
    (acc : List (List Nat)) (hi : i < d.length - 4)
    (h4 : sc4At d i = false) (h3 : sc3At d i = false) :
    extractLoop keep d d.length i acc = extractLoop keep d d.length (i+1) acc := by
  obtain ⟨n, hn⟩ : ∃ n, d.length = n + 1 := ⟨d.length - 1, by omega⟩
  conv_lhs => rw [hn]
  rw [extractLoop_succ, if_pos hi, if_neg (by rw [h4, h3]; simp)]
  exact extractLoop_fuel keep d n d.length _ _ (by omega) (by omega)

/-- The outer loop walks unchanged across a region with no start codes. -/
theorem extractLoop_skip (keep : Nat → Bool) (d : List Nat) :
    ∀ (n a : Nat) (acc : List (List Nat)),
      (∀ k, k < n → sc4At d (a+k) = false ∧ sc3At d (a+k) = false) →
      extractLoop keep d d.length a acc = extractLoop keep d d.length (a + n) acc := by
  intro n
  induction n with
  | zero => intro a acc _; rfl
  | succ n ih =>
      intro a acc h
      by_cases ha : a < d.length - 4
      · have h0 := h 0 (by omega)
        rw [extractLoop_step_else keep d a acc ha h0.1 h0.2]
        have hsh : ∀ k, k < n → sc4At d (a+1+k) = false ∧ sc3At d (a+1+k) = false := by
          intro k hk
          have := h (k+1) (by omega)
          have e : a + (k+1) = a + 1 + k := by omega
          rwa [e] at this
        have := ih (a+1) acc hsh
        have e2 : a + 1 + n = a + (n+1) := by omega
        rwa [e2] at this
      · rw [extractLoop_exit keep d a ha, extractLoop_exit keep d _ (by omega)]

/-- The outer loop only ever appends to its accumulator. -/
theorem extractLoop_mem_mono (keep : Nat → Bool) (d : List Nat) :
    ∀ (f i : Nat) (acc : List (List Nat)) (x : List Nat),
      x ∈ acc → x ∈ extractLoop keep d f i acc := by
  intro f
  induction f with
  | zero => intro i acc x h; exact h
  | succ f ih =>
      intro i acc x h
      rw [extractLoop_succ]
      by_cases hi : i < d.length - 4
      · rw [if_pos hi]
        by_cases hsc : (sc4At d i || sc3At d i) = true
        · rw [if_pos hsc]
          apply ih
          by_cases hpush : nsOf d i < findNalEnd d d.length (nsOf d i) ∧
              nsOf d i < d.length ∧ keep (byteAt d (nsOf d i)) = true
          · rw [if_pos hpush]; exact List.mem_append_left _ h
          · rw [if_neg hpush]; exact h
        · rw [if_neg hsc]; exact ih _ _ _ h
      · rw [if_neg hi]; exact h

/-! ## Synthesized payloads: start codes and clean NAL units -/

/-- A start code as a byte sequence: `true` the 4-byte `00 00 00 01`,
`false` the 3-byte `00 00 01`. -/
def scBytes (b : Bool) : List Nat := if b then [0, 0, 0, 1] else [0, 0, 1]

/-- A well-formed NAL unit body as emitted by an encoder: nonempty, does
not end in a zero byte (the RBSP stop bit forbids it), and contains no
`00 00 01` window (emulation prevention forbids it). -/
def cleanNal (u : List Nat) : Bool :=
  (!u.isEmpty) && (byteAt u (u.length - 1) != 0) &&
  ((List.range u.length).all fun k =>
    !(byteAt u k == 0 && byteAt u (k+1) == 0 && byteAt u (k+2) == 1))

/-- Unpack `cleanNal`. -/
theorem cleanNal_spec (u : List Nat) (h : cleanNal u = true) :
    u ≠ [] ∧ byteAt u (u.length - 1) ≠ 0 ∧
    ∀ k, k + 2 < u.length →
      ¬(byteAt u k = 0 ∧ byteAt u (k+1) = 0 ∧ byteAt u (k+2) = 1) := by
  rw [cleanNal, Bool.and_eq_true, Bool.and_eq_true] at h
  obtain ⟨⟨h1, h2⟩, h3⟩ := h
  refine ⟨by simpa using h1, by simpa using h2, ?_⟩
  intro k hk hpat
  have hmem : k ∈ List.range u.length := List.mem_range.mpr (by omega)
  have := List.all_eq_true.mp h3 k hmem
  simp only [hpat.1, hpat.2.1, hpat.2.2] at this
  simp at this

/-- The 4-byte start-code test, byte by byte. -/
theorem sc4At_iff (d : List Nat) (i : Nat) :
    sc4At d i = true ↔
      byteAt d i = 0 ∧ byteAt d (i+1) = 0 ∧ byteAt d (i+2) = 0 ∧ byteAt d (i+3) = 1 := by
  simp [sc4At, and_assoc]

/-- The 3-byte start-code test, byte by byte. -/
theorem sc3At_iff (d : List Nat) (i : Nat) :
    sc3At d i = true ↔
      byteAt d i = 0 ∧ byteAt d (i+1) = 0 ∧ byteAt d (i+2) = 1 := by
  simp [sc3At, and_assoc]

/-- Inside a clean NAL unit (at offsets `[s, s + u.length)` of the payload)
neither start-code test fires, whatever follows the unit. -/
theorem noSC_inside (d u : List Nat) (s : Nat)
    (hbytes : ∀ k, k < u.length → byteAt d (s + k) = byteAt u k)
    (hclean : cleanNal u = true) :
    ∀ j, s ≤ j → j < s + u.length → sc4At d j = false ∧ sc3At d j = false := by
  obtain ⟨hne, hlast, hno⟩ := cleanNal_spec u hclean
  have hm1 : 1 ≤ u.length := List.length_pos.mpr hne
  intro j hj1 hj2
  obtain ⟨k, hk, rfl⟩ : ∃ k, k < u.length ∧ j = s + k := ⟨j - s, by omega, by omega⟩
  have bt : ∀ t, k + t < u.length → byteAt d (s + k + t) = byteAt u (k + t) := by
    intro t ht
    have := hbytes (k + t) ht
    rwa [show s + (k + t) = s + k + t by omega] at this
  constructor
  · by_contra hcon
    rw [Bool.not_eq_false, sc4At_iff] at hcon
    obtain ⟨h0, h1, h2, h3⟩ := hcon
    rcases Nat.lt_or_ge (k + 3) u.length with hc | hc
    · refine hno (k + 1) (by omega) ?_
      refine ⟨?_, ?_, ?_⟩
      · rw [← bt 1 (by omega)]; exact h1
      · rw [← bt 2 (by omega)]; exact h2
      · rw [← bt 3 (by omega)]; exact h3
    · have hsplit : u.length = k + 1 ∨ u.length = k + 2 ∨ u.length = k + 3 := by omega
      rcases hsplit with he | he | he
      · apply hlast
        have e : u.length - 1 = k := by omega
        rw [e, ← hbytes k hk]
        exact h0
      · apply hlast
        have e : u.length - 1 = k + 1 := by omega
        rw [e, ← bt 1 (by omega)]
        exact h1
      · apply hlast
        have e : u.length - 1 = k + 2 := by omega
        rw [e, ← bt 2 (by omega)]
        exact h2
  · by_contra hcon
    rw [Bool.not_eq_false, sc3At_iff] at hcon
    obtain ⟨h0, h1, h2⟩ := hcon
    rcases Nat.lt_or_ge (k + 2) u.length with hc | hc
    · refine hno k (by omega) ?_
      refine ⟨?_, ?_, ?_⟩
      · rw [← hbytes k hk]; exact h0
      · rw [← bt 1 (by omega)]; exact h1
      · rw [← bt 2 (by omega)]; exact h2
    · have hsplit : u.length = k + 1 ∨ u.length = k + 2 := by omega
      rcases hsplit with he | he
      · apply hlast
        have e : u.length - 1 = k := by omega
        rw [e, ← hbytes k hk]
        exact h0
      · apply hlast
        have e : u.length - 1 = k + 1 := by omega
        rw [e, ← bt 1 (by omega)]
        exact h1

/-- A 3-byte start code read at offset `p`. -/
theorem sc_of_bytes3 (d : List Nat) (p : Nat)
    (h0 : byteAt d p = 0) (h1 : byteAt d (p+1) = 0) (h2 : byteAt d (p+2) = 1) :
    sc4At d p = false ∧ sc3At d p = true ∧ (sc4At d p || sc3At d p) = true ∧
    nsOf d p = p + 3 ∧ nextSCAt d p = true := by
  have h4 : sc4At d p = false := by simp [sc4At, h0, h1, h2]
  have h3 : sc3At d p = true := by simp [sc3At, h0, h1, h2]
  refine ⟨h4, h3, by rw [h4, h3]; rfl, by rw [nsOf, h4]; simp, by rw [nextSCAt, h3]; rfl⟩

/-- A 4-byte start code read at offset `p`. -/
theorem sc_of_bytes4 (d : List Nat) (p : Nat)
    (h0 : byteAt d p = 0) (h1 : byteAt d (p+1) = 0) (h2 : byteAt d (p+2) = 0)
    (h3 : byteAt d (p+3) = 1) :
    sc4At d p = true ∧ (sc4At d p || sc3At d p) = true ∧
    nsOf d p = p + 4 ∧ nextSCAt d p = true := by
  have h4 : sc4At d p = true := by simp [sc4At, h0, h1, h2, h3]
  refine ⟨h4, by rw [h4]; rfl, by rw [nsOf, h4]; simp, by rw [nextSCAt, h4]; simp⟩

/-- Decoding the 2-byte big-endian length: exact below 2^16. -/
theorem lenBE_decode (m : Nat) (h : m < 65536) :
    256 * lenByteHi m + lenByteLo m = m := by
  have e1 : lenByteHi m = m / 256 % 256 := by
    rw [lenByteHi, Nat.shiftRight_eq_div_pow]
    have := Nat.and_pow_two_sub_one_eq_mod (m / 2 ^ 8) 8
    norm_num at this ⊢
    exact this
  have e2 : lenByteLo m = m % 256 := by
    rw [lenByteLo]
    have := Nat.and_pow_two_sub_one_eq_mod m 8
    norm_num at this ⊢
    exact this
  rw [e1, e2]
  omega

/-- The two start-code tests both fail where `nextSCAt` is known false,
and conversely. -/
theorem nextSCAt_eq_false_of_noSC (d : List Nat) (j : Nat)
    (h4 : sc4At d j = false) (h3 : sc3At d j = false) : nextSCAt d j = false := by
  rw [nextSCAt, h3, h4]; rfl

/-- Read a middle segment of a concatenation. -/
theorem byteAt_seg (P Q R : List Nat) (s k : Nat) (hs : P.length = s) (hk : k < Q.length) :
    byteAt (P ++ (Q ++ R)) (s + k) = byteAt Q k := by
  subst hs
  rw [byteAt_append_right, byteAt_append_left Q R k hk]

/-- A start code whose bytes sit at offset `p` is detected there, with the
NAL start right past it. -/
theorem sc_at_seg (d : List Nat) (b : Bool) (p : Nat)
    (hbytes : ∀ k, k < (scBytes b).length → byteAt d (p + k) = byteAt (scBytes b) k) :
    (sc4At d p || sc3At d p) = true ∧ nsOf d p = p + (scBytes b).length ∧
    nextSCAt d p = true := by
  cases b
  · have h0 : byteAt d p = 0 := by
      simpa [scBytes, byteAt] using hbytes 0 (by simp [scBytes])
    have h1 : byteAt d (p+1) = 0 := by
      simpa [scBytes, byteAt] using hbytes 1 (by simp [scBytes])
    have h2 : byteAt d (p+2) = 1 := by
      simpa [scBytes, byteAt] using hbytes 2 (by simp [scBytes])
    obtain ⟨-, -, hsc, hns, hnext⟩ := sc_of_bytes3 d p h0 h1 h2
    exact ⟨hsc, by rw [hns]; simp [scBytes], hnext⟩
  · have h0 : byteAt d p = 0 := by
      simpa [scBytes, byteAt] using hbytes 0 (by simp [scBytes])
    have h1 : byteAt d (p+1) = 0 := by
      simpa [scBytes, byteAt] using hbytes 1 (by simp [scBytes])
    have h2 : byteAt d (p+2) = 0 := by
      simpa [scBytes, byteAt] using hbytes 2 (by simp [scBytes])
    have h3 : byteAt d (p+3) = 1 := by
      simpa [scBytes, byteAt] using hbytes 3 (by simp [scBytes])
    obtain ⟨-, hsc, hns, hnext⟩ := sc_of_bytes4 d p h0 h1 h2 h3
    exact ⟨hsc, by rw [hns]; simp [scBytes], hnext⟩

/-- A payload opening directly with a start code followed by a
keyframe-signalling NAL byte is reported as key by the bounded scan. -/
theorem isH264Keyframe_front (d : List Nat) (b : Bool)
    (hd5 : 5 ≤ min d.length 100)
    (hbytes : ∀ k, k < (scBytes b).length → byteAt d k = byteAt (scBytes b) k)
    (hns : (scBytes b).length < d.length)
    (htype : h264TypeOK (byteAt d (scBytes b).length) = true) :
    isH264Keyframe d 100 = true := by
  show keyScanLoop h264TypeOK d (min d.length 100) (min d.length 100) 0 = true
  obtain ⟨n, hn⟩ : ∃ n, min d.length 100 = n + 1 := ⟨min d.length 100 - 1, by omega⟩
  rw [hn, keyScanLoop_succ, if_pos (by omega)]
  cases b
  · simp [scBytes] at hbytes hns htype
    have h0 : byteAt d 0 = 0 := by
      simpa [byteAt] using hbytes 0 (by omega)
    have h1 : byteAt d (0+1) = 0 := by
      simpa [byteAt] using hbytes 1 (by omega)
    have h2 : byteAt d (0+2) = 1 := by
      simpa [byteAt] using hbytes 2 (by omega)
    obtain ⟨h4f, h3t, -, -, -⟩ := sc_of_bytes3 d 0 h0 h1 h2
    rw [h4f, h3t]
    simp only [Bool.false_eq_true, if_false, if_true]
    rw [if_pos ⟨by omega, by simpa using htype⟩]
  · simp [scBytes] at hbytes hns htype
    have h0 : byteAt d 0 = 0 := by
      simpa [byteAt] using hbytes 0 (by omega)
    have h1 : byteAt d (0+1) = 0 := by
      simpa [byteAt] using hbytes 1 (by omega)
    have h2 : byteAt d (0+2) = 0 := by
      simpa [byteAt] using hbytes 2 (by omega)
    have h3 : byteAt d (0+3) = 1 := by
      simpa [byteAt] using hbytes 3 (by omega)
    obtain ⟨h4t, -, -, -⟩ := sc_of_bytes4 d 0 h0 h1 h2 h3
    rw [h4t]
    simp only [if_true]
    rw [if_pos ⟨by omega, by simpa using htype⟩]

/-- C6.  Every synthesized Family-A payload made of a start-code-prefixed
type-7 unit, a type-8 unit and a type-5 unit (the units being well-formed
NAL bodies, and the two parameter sets shorter than 2^16 bytes) is
classified as a keyframe, and description extraction returns exactly the
type-7 then the type-8 unit in encounter order, each preceded by its
2-byte big-endian length, concatenated with no separators. -/
theorem spec_C6 (b1 b2 b3 : Bool) (u1 u2 u3 d : List Nat)
    (hd : d = scBytes b1 ++ u1 ++ scBytes b2 ++ u2 ++ scBytes b3 ++ u3)
    (hcl1 : cleanNal u1 = true) (hcl2 : cleanNal u2 = true) (hcl3 : cleanNal u3 = true)
    (ht1 : byteAt u1 0 &&& 0x1F = 7) (ht2 : byteAt u2 0 &&& 0x1F = 8)
    (ht3 : byteAt u3 0 &&& 0x1F = 5)
    (hw1 : u1.length < 65536) (hw2 : u2.length < 65536) :
    extractNalUnits h264Keep d = [u1, u2] ∧
    extractH264Description d =
      some ((lenByteHi u1.length :: lenByteLo u1.length :: u1) ++
            (lenByteHi u2.length :: lenByteLo u2.length :: u2)) ∧
    256 * lenByteHi u1.length + lenByteLo u1.length = u1.length ∧
    256 * lenByteHi u2.length + lenByteLo u2.length = u2.length ∧
    isH264Keyframe d 100 = true := by
  have hm1 : 1 ≤ u1.length := List.length_pos.mpr (cleanNal_spec u1 hcl1).1
  have hm2 : 1 ≤ u2.length := List.length_pos.mpr (cleanNal_spec u2 hcl2).1
  have hm3 : 1 ≤ u3.length := List.length_pos.mpr (cleanNal_spec u3 hcl3).1
  have hb1l : 3 ≤ (scBytes b1).length ∧ (scBytes b1).length ≤ 4 := by
    cases b1 <;> simp [scBytes]
  have hb2l : 3 ≤ (scBytes b2).length ∧ (scBytes b2).length ≤ 4 := by
    cases b2 <;> simp [scBytes]
  have hb3l : 3 ≤ (scBytes b3).length ∧ (scBytes b3).length ≤ 4 := by
    cases b3 <;> simp [scBytes]
  have hdl : d.length =
      (scBytes b1).length + u1.length + (scBytes b2).length + u2.length +
      (scBytes b3).length + u3.length := by
    rw [hd]; simp only [List.length_append]
  -- regrouped forms of the payload (`++` is left-associative; the scan
  -- lemmas want an explicit prefix/segment/suffix split)
  have hre1 : scBytes b1 ++ u1 ++ scBytes b2 ++ u2 ++ scBytes b3 ++ u3 =
      scBytes b1 ++ (u1 ++ (scBytes b2 ++ (u2 ++ (scBytes b3 ++ u3)))) := by
    simp [List.append_assoc]
  have hre2 : scBytes b1 ++ u1 ++ scBytes b2 ++ u2 ++ scBytes b3 ++ u3 =
      (scBytes b1 ++ u1) ++ (scBytes b2 ++ (u2 ++ (scBytes b3 ++ u3))) := by
    simp [List.append_assoc]
  have hre3 : scBytes b1 ++ u1 ++ scBytes b2 ++ u2 ++ scBytes b3 ++ u3 =
      (scBytes b1 ++ u1 ++ scBytes b2) ++ (u2 ++ (scBytes b3 ++ u3)) := by
    simp [List.append_assoc]
  have hre4 : scBytes b1 ++ u1 ++ scBytes b2 ++ u2 ++ scBytes b3 ++ u3 =
      (scBytes b1 ++ u1 ++ scBytes b2 ++ u2) ++ (scBytes b3 ++ u3) := by
    simp [List.append_assoc]
  have hre5 : scBytes b1 ++ u1 ++ scBytes b2 ++ u2 ++ scBytes b3 ++ u3 =
      (scBytes b1 ++ u1 ++ scBytes b2 ++ u2 ++ scBytes b3) ++ (u3 ++ []) := by
    simp [List.append_assoc]
  -- byte dictionaries
  have hcb1 : ∀ k, k < (scBytes b1).length → byteAt d (0 + k) = byteAt (scBytes b1) k := by
    intro k hk
    rw [Nat.zero_add, hd, hre1]
    exact byteAt_append_left _ _ k hk
  have hu1b : ∀ k, k < u1.length →
      byteAt d ((scBytes b1).length + k) = byteAt u1 k := by
    intro k hk
    rw [hd, hre1]
    exact byteAt_seg (scBytes b1) u1 _ _ k rfl hk
  have hcb2 : ∀ k, k < (scBytes b2).length →
      byteAt d ((scBytes b1).length + u1.length + k) = byteAt (scBytes b2) k := by
    intro k hk
    rw [hd, hre2]
    exact byteAt_seg (scBytes b1 ++ u1) (scBytes b2) _ _ k (by simp) hk
  have hu2b : ∀ k, k < u2.length →
      byteAt d ((scBytes b1).length + u1.length + (scBytes b2).length + k) = byteAt u2 k := by
    intro k hk
    rw [hd, hre3]
    exact byteAt_seg (scBytes b1 ++ u1 ++ scBytes b2) u2 _ _ k
      (by simp only [List.length_append]) hk
  have hcb3 : ∀ k, k < (scBytes b3).length →
      byteAt d ((scBytes b1).length + u1.length + (scBytes b2).length + u2.length + k) =
        byteAt (scBytes b3) k := by
    intro k hk
    rw [hd, hre4]
    exact byteAt_seg (scBytes b1 ++ u1 ++ scBytes b2 ++ u2) (scBytes b3) _ _ k
      (by simp only [List.length_append]) hk
  have hu3b : ∀ k, k < u3.length →
      byteAt d ((scBytes b1).length + u1.length + (scBytes b2).length + u2.length +
        (scBytes b3).length + k) = byteAt u3 k := by
    intro k hk
    rw [hd, hre5]
    exact byteAt_seg (scBytes b1 ++ u1 ++ scBytes b2 ++ u2 ++ scBytes b3) u3 [] _ k
      (by simp only [List.length_append]) hk
  -- no start code fires inside any unit
  have hno1 := noSC_inside d u1 (scBytes b1).length hu1b hcl1
  have hno2 := noSC_inside d u2
    ((scBytes b1).length + u1.length + (scBytes b2).length) hu2b hcl2
  have hno3 := noSC_inside d u3
    ((scBytes b1).length + u1.length + (scBytes b2).length + u2.length +
      (scBytes b3).length) hu3b hcl3
  -- the three start codes are detected
  have hA := sc_at_seg d b1 0 hcb1
  have hB := sc_at_seg d b2 ((scBytes b1).length + u1.length) hcb2
  have hC := sc_at_seg d b3
    ((scBytes b1).length + u1.length + (scBytes b2).length + u2.length) hcb3
  -- nalEnd searches stop at the next start code
  have hfind1 : findNalEnd d d.length (scBytes b1).length =
      (scBytes b1).length + u1.length := by
    refine findNalEnd_found d u1.length (scBytes b1).length (by omega) ?_ hB.2.2
    intro k hk1 hk2
    have h := hno1 k hk1 hk2
    exact nextSCAt_eq_false_of_noSC d k h.1 h.2
  have hfind2 : findNalEnd d d.length
      ((scBytes b1).length + u1.length + (scBytes b2).length) =
      (scBytes b1).length + u1.length + (scBytes b2).length + u2.length := by
    refine findNalEnd_found d u2.length
      ((scBytes b1).length + u1.length + (scBytes b2).length) (by omega) ?_ hC.2.2
    intro k hk1 hk2
    have h := hno2 k hk1 hk2
    exact nextSCAt_eq_false_of_noSC d k h.1 h.2
  -- the extracted slices are exactly the units
  have hslice1 : nalSlice d (scBytes b1).length ((scBytes b1).length + u1.length) = u1 := by
    rw [nalSlice, hd, hre1]
    have e : (scBytes b1).length + u1.length - (scBytes b1).length = u1.length := by omega
    rw [e, List.drop_left' rfl, List.take_left' rfl]
  have hslice2 : nalSlice d ((scBytes b1).length + u1.length + (scBytes b2).length)
      ((scBytes b1).length + u1.length + (scBytes b2).length + u2.length) = u2 := by
    rw [nalSlice, hd, hre3]
    have e : (scBytes b1).length + u1.length + (scBytes b2).length + u2.length -
        ((scBytes b1).length + u1.length + (scBytes b2).length) = u2.length := by omega
    rw [e, List.drop_left' (by simp only [List.length_append]), List.take_left' rfl]
  -- the NAL-type filter
  have hkeep1 : h264Keep (byteAt d (scBytes b1).length) = true := by
    have hb : byteAt d (scBytes b1).length = byteAt u1 0 := by
      simpa using hu1b 0 (by omega)
    rw [hb]; simp [h264Keep, ht1]
  have hkeep2 : h264Keep (byteAt d
      ((scBytes b1).length + u1.length + (scBytes b2).length)) = true := by
    have hb : byteAt d ((scBytes b1).length + u1.length + (scBytes b2).length) =
        byteAt u2 0 := by
      simpa using hu2b 0 (by omega)
    rw [hb]; simp [h264Keep, ht2]
  have hkeep3 : h264Keep (byteAt d
      ((scBytes b1).length + u1.length + (scBytes b2).length + u2.length +
        (scBytes b3).length)) = false := by
    have hb : byteAt d ((scBytes b1).length + u1.length + (scBytes b2).length +
        u2.length + (scBytes b3).length) = byteAt u3 0 := by
      simpa using hu3b 0 (by omega)
    rw [hb]; simp [h264Keep, ht3]
  -- run the outer loop
  have hmain : extractLoop h264Keep d d.length 0 [] = [u1, u2] := by
    rw [extractLoop_step_sc h264Keep d 0 [] (by omega) hA.1, hA.2.1, Nat.zero_add,
      hfind1, if_pos ⟨by omega, by omega, hkeep1⟩, hslice1, List.nil_append]
    rw [extractLoop_skip h264Keep d u1.length (scBytes b1).length [u1]
      (fun k hk => hno1 ((scBytes b1).length + k) (by omega) (by omega))]
    rw [extractLoop_step_sc h264Keep d ((scBytes b1).length + u1.length) [u1]
      (by omega) hB.1, hB.2.1, hfind2, if_pos ⟨by omega, by omega, hkeep2⟩, hslice2,
      List.singleton_append]
    rw [extractLoop_skip h264Keep d u2.length
      ((scBytes b1).length + u1.length + (scBytes b2).length) [u1, u2]
      (fun k hk => hno2 ((scBytes b1).length + u1.length + (scBytes b2).length + k)
        (by omega) (by omega))]
    rcases Nat.lt_or_ge
        ((scBytes b1).length + u1.length + (scBytes b2).length + u2.length)
        (d.length - 4) with hP3 | hP3
    · rw [extractLoop_step_sc h264Keep d
        ((scBytes b1).length + u1.length + (scBytes b2).length + u2.length) [u1, u2]
        hP3 hC.1, hC.2.1, if_neg (by simp [hkeep3])]
      rw [extractLoop_skip h264Keep d u3.length
        ((scBytes b1).length + u1.length + (scBytes b2).length + u2.length +
          (scBytes b3).length) [u1, u2]
        (fun k hk => hno3 ((scBytes b1).length + u1.length + (scBytes b2).length +
          u2.length + (scBytes b3).length + k) (by omega) (by omega))]
      exact extractLoop_exit h264Keep d _ (by omega) _ _
    · exact extractLoop_exit h264Keep d _ (by omega) _ _
  have hunits : extractNalUnits h264Keep d = [u1, u2] := by
    rw [extractNalUnits]; exact hmain
  refine ⟨hunits, ?_, lenBE_decode u1.length hw1, lenBE_decode u2.length hw2, ?_⟩
  · rw [extractH264Description]
    simp [hunits, buildDescription]
  · have htype : h264TypeOK (byteAt d (scBytes b1).length) = true := by
      have hb : byteAt d (scBytes b1).length = byteAt u1 0 := by
        simpa using hu1b 0 (by omega)
      rw [hb]; simp [h264TypeOK, ht1]
    refine isH264Keyframe_front d b1 (by omega) ?_ (by omega) htype
    intro k hk
    simpa using hcb1 k hk

/-- Witness for C6: a concrete payload — 4-byte code + SPS `67 42`,
3-byte code + PPS `68 CE`, 4-byte code + IDR `65 88` — yields the
two length-prefixed parameter sets and a positive keyframe verdict. -/
theorem spec_C6_witness :
    extractH264Description
        [0, 0, 0, 1, 0x67, 0x42, 0, 0, 1, 0x68, 0xCE, 0, 0, 0, 1, 0x65, 0x88] =
      some [0, 2, 0x67, 0x42, 0, 2, 0x68, 0xCE] ∧
    isH264Keyframe
        [0, 0, 0, 1, 0x67, 0x42, 0, 0, 1, 0x68, 0xCE, 0, 0, 0, 1, 0x65, 0x88] 100 = true := by
  have h := spec_C6 true false true [0x67, 0x42] [0x68, 0xCE] [0x65, 0x88]
    [0, 0, 0, 1, 0x67, 0x42, 0, 0, 1, 0x68, 0xCE, 0, 0, 0, 1, 0x65, 0x88]
    (by decide) (by decide) (by decide) (by decide) (by decide) (by decide)
    (by decide) (by decide) (by decide)
  exact ⟨h.2.1.trans (by decide), h.2.2.2.2⟩

/-! ## Completeness of the full-payload extraction scan -/

/-- A NAL byte accepted as an H.264 parameter set is nonzero. -/
theorem h264Keep_ne_zero (b : Nat) (h : h264Keep b = true) : b ≠ 0 := by
  intro hb
  subst hb
  exact absurd h (by decide)

/-- A NAL byte accepted as an H.265 parameter set is nonzero. -/
theorem h265Keep_ne_zero (b : Nat) (h : h265Keep b = true) : b ≠ 0 := by
  intro hb
  subst hb
  exact absurd h (by decide)

/-- Case split on a true boolean disjunction. -/
theorem or_true_elim (a b : Bool) (h : (a || b) = true) : a = true ∨ b = true := by
  simpa using h

/-- Completeness of the outer scan: a start code at `p` strictly inside the
loop's range whose following NAL byte passes the filter (and is nonzero)
contributes its unit to the result, wherever the loop currently stands at
or before `p`. -/
theorem extractLoop_complete (keep : Nat → Bool) (d : List Nat) (p : Nat)
    (hplen : p + 4 < d.length) (hscp : (sc4At d p || sc3At d p) = true)
    (hkeep : keep (byteAt d (nsOf d p)) = true) (hbne : byteAt d (nsOf d p) ≠ 0) :
    ∀ (fuel i : Nat) (acc : List (List Nat)), d.length - 4 - i ≤ fuel → i ≤ p →
      nalSlice d (nsOf d p) (findNalEnd d d.length (nsOf d p)) ∈
        extractLoop keep d fuel i acc := by
  intro fuel
  induction fuel with
  | zero =>
      intro i acc hf hip
      exact absurd hf (by omega)
  | succ fuel ih =>
      intro i acc hf hip
      have hi : i < d.length - 4 := by omega
      rw [extractLoop_succ, if_pos hi]
      by_cases hsci : (sc4At d i || sc3At d i) = true
      · rw [if_pos hsci]
        rcases Nat.lt_or_ge p (nsOf d i) with hover | hcont
        · rcases Nat.eq_or_lt_of_le hip with heq | hlt2
          · subst heq
            have hcond : nsOf d i < findNalEnd d d.length (nsOf d i) ∧
                nsOf d i < d.length ∧ keep (byteAt d (nsOf d i)) = true := by
              have hns4 := (nsOf_bounds d i).2
              exact ⟨findNalEnd_pos d d.length (nsOf d i) (by omega) hbne,
                by omega, hkeep⟩
            rw [if_pos hcond]
            apply extractLoop_mem_mono
            exact List.mem_append_right _ (List.mem_singleton.mpr rfl)
          · -- i < p < nsOf d i: p's start code overlaps the one at i
            have h4i : sc4At d i = true := by
              cases hb : sc4At d i
              · exfalso
                have h3i : sc3At d i = true := by
                  rw [hb] at hsci; simpa using hsci
                have hns : nsOf d i = i + 3 := by
                  rw [nsOf, hb]
                  simp only [Bool.false_eq_true, if_false]
                rw [hns] at hover
                obtain ⟨e0, e1, e2⟩ := (sc3At_iff d i).mp h3i
                have hp : p = i + 1 ∨ p = i + 2 := by omega
                rcases hp with hp | hp <;> subst hp <;>
                  rcases or_true_elim _ _ hscp with hx | hx
                · obtain ⟨g0, g1, g2, g3⟩ := (sc4At_iff d (i+1)).mp hx
                  rw [show i+1+1 = i+2 from rfl] at g1
                  omega
                · obtain ⟨g0, g1, g2⟩ := (sc3At_iff d (i+1)).mp hx
                  rw [show i+1+1 = i+2 from rfl] at g1
                  omega
                · obtain ⟨g0, g1, g2, g3⟩ := (sc4At_iff d (i+2)).mp hx
                  omega
                · obtain ⟨g0, g1, g2⟩ := (sc3At_iff d (i+2)).mp hx
                  omega
              · rfl
            have hns : nsOf d i = i + 4 := by rw [nsOf, h4i]; simp
            obtain ⟨e0, e1, e2, e3⟩ := (sc4At_iff d i).mp h4i
            rw [hns] at hover
            have hp : p = i + 1 := by
              have hmem : p = i + 1 ∨ p = i + 2 ∨ p = i + 3 := by omega
              rcases hmem with hp | hp | hp
              · exact hp
              · exfalso
                subst hp
                rcases or_true_elim _ _ hscp with hx | hx
                · obtain ⟨g0, g1, g2, g3⟩ := (sc4At_iff d (i+2)).mp hx
                  rw [show i+2+1 = i+3 from rfl] at g1
                  omega
                · obtain ⟨g0, g1, g2⟩ := (sc3At_iff d (i+2)).mp hx
                  rw [show i+2+1 = i+3 from rfl] at g1
                  omega
              · exfalso
                subst hp
                rcases or_true_elim _ _ hscp with hx | hx
                · obtain ⟨g0, g1, g2, g3⟩ := (sc4At_iff d (i+3)).mp hx
                  omega
                · obtain ⟨g0, g1, g2⟩ := (sc3At_iff d (i+3)).mp hx
                  omega
            subst hp
            have h4p : sc4At d (i+1) = false := by
              cases hb : sc4At d (i+1)
              · rfl
              · exfalso
                obtain ⟨g0, g1, g2, g3⟩ := (sc4At_iff d (i+1)).mp hb
                rw [show i+1+2 = i+3 from rfl] at g2
                omega
            have hnsp : nsOf d (i+1) = i + 4 := by
              rw [nsOf, h4p]
              simp only [Bool.false_eq_true, if_false]
            rw [hnsp] at hkeep hbne ⊢
            rw [hns]
            have hcond : i + 4 < findNalEnd d d.length (i+4) ∧
                i + 4 < d.length ∧ keep (byteAt d (i+4)) = true :=
              ⟨findNalEnd_pos d d.length (i+4) (by omega) hbne, by omega, hkeep⟩
            rw [if_pos hcond]
            apply extractLoop_mem_mono
            exact List.mem_append_right _ (List.mem_singleton.mpr rfl)
        · -- the loop jumps to `nsOf d i ≤ p`: recurse
          have hb := nsOf_bounds d i
          exact ih (nsOf d i) _ (by omega) hcont
      · rw [if_neg hsci]
        have hlt : i < p := by
          rcases Nat.eq_or_lt_of_le hip with heq | h
          · exfalso; subst heq; exact hsci hscp
          · exact h
        exact ih (i+1) acc (by omega) (by omega)

/-- C8 (amended).  Parameter-set extraction is a full scan with no 100-byte
bound: for both codec families, every parameter-set NAL unit whose start
code begins at an offset `p` with `p + 4 < payload length` — however far
beyond 100 bytes — is discovered and included in the extracted unit list.
(Units whose start code begins within the final 4 bytes are outside the
loop bound `i < length - 4`; see the counterexample.) -/
theorem spec_C8 :
    (∀ (d : List Nat) (p : Nat), p + 4 < d.length →
        (sc4At d p || sc3At d p) = true →
        h264Keep (byteAt d (nsOf d p)) = true →
        nalSlice d (nsOf d p) (findNalEnd d d.length (nsOf d p)) ∈
          extractNalUnits h264Keep d) ∧
    (∀ (d : List Nat) (p : Nat), p + 4 < d.length →
        (sc4At d p || sc3At d p) = true →
        h265Keep (byteAt d (nsOf d p)) = true →
        nalSlice d (nsOf d p) (findNalEnd d d.length (nsOf d p)) ∈
          extractNalUnits h265Keep d) := by
  constructor
  · intro d p hlen hsc hkeep
    exact extractLoop_complete h264Keep d p hlen hsc hkeep
      (h264Keep_ne_zero _ hkeep) d.length 0 [] (by omega) (Nat.zero_le p)
  · intro d p hlen hsc hkeep
    exact extractLoop_complete h265Keep d p hlen hsc hkeep
      (h265Keep_ne_zero _ hkeep) d.length 0 [] (by omega) (Nat.zero_le p)

/-- Counterexample to C8 as stated: in the payload `00 00 01 67` an SPS
unit (type 7) is preceded by a 3-byte start code at the very end of the
buffer, yet the full scan discovers nothing — the outer loop bound
`i < length - 4` never admits the start-code offset 0. -/
theorem spec_C8_counterexample :
    sc3At [0, 0, 1, 0x67] 0 = true ∧
    byteAt [0, 0, 1, 0x67] (nsOf [0, 0, 1, 0x67] 0) &&& 0x1F = 7 ∧
    extractNalUnits h264Keep [0, 0, 1, 0x67] = [] ∧
    extractH264Description [0, 0, 1, 0x67] = none := by decide

set_option maxRecDepth 100000 in
/-- Witness for C8: a parameter set whose start code begins at offset 100 —
beyond the keyframe scan's bound — is still extracted. -/
theorem spec_C8_witness :
    nalSlice (List.replicate 100 0xAA ++ [0, 0, 0, 1, 0x67, 0x42])
        (nsOf (List.replicate 100 0xAA ++ [0, 0, 0, 1, 0x67, 0x42]) 100)
        (findNalEnd (List.replicate 100 0xAA ++ [0, 0, 0, 1, 0x67, 0x42])
          (List.replicate 100 0xAA ++ [0, 0, 0, 1, 0x67, 0x42]).length
          (nsOf (List.replicate 100 0xAA ++ [0, 0, 0, 1, 0x67, 0x42]) 100)) ∈
      extractNalUnits h264Keep (List.replicate 100 0xAA ++ [0, 0, 0, 1, 0x67, 0x42]) :=
  spec_C8.1 (List.replicate 100 0xAA ++ [0, 0, 0, 1, 0x67, 0x42]) 100
    (by decide) (by decide) (by decide)

end TsPlayer
